import Mathlib

/-!
Shallow embedding of the core pipeline of `src/ir_code_extractor.py`
(TV-B-Gone code extractor): pulse extraction, duration clustering,
trailing-pulse resolution, index bit-packing and the output rows.

Durations after the `astype(int)` conversion are integers (10 microsecond
units); the raw millisecond timestamps and durations are modelled as
rationals (the concrete inputs used below are exactly representable as
binary floats, so the rational model agrees with the script's float
arithmetic on them).
-/

set_option maxHeartbeats 1000000

abbrev Pair := ℤ × ℤ

/-- Config value `CLUSTERING_DIVERGENCE_US = 5` (line 84). -/
def CLUSTERING_DIVERGENCE_US : ℤ := 5

/-- Read of a list of pairs at an index, numpy style; the default is never
reached in any statement proved below. -/
def pget (p : List Pair) (i : ℕ) : Pair := p.getD i (0, 0)

/-- `numpy.astype(int)`: truncation toward zero. -/
def truncInt (q : ℚ) : ℤ := if 0 ≤ q then ⌊q⌋ else ⌈q⌉

/-- Conversion of a millisecond duration to 10 microsecond units,
lines 266-267: `on_off_times_10us = (on_off_times_ms * 100).astype(int)`. -/
def to_10us (q : ℚ) : ℤ := truncInt (q * 100)

/-- Python 3 `round` applied to the quotient `a / b` (with `b > 0`): round
half to even, in exact integer arithmetic.  (The script rounds the float
quotient `on_t_accum / num_items`; the float and the exact quotient agree
wherever the quotient is exactly representable, in particular at every
input used in the statements below.) -/
def pyRound (a b : ℤ) : ℤ :=
  if 2 * (a - a.fdiv b * b) < b then a.fdiv b
  else if b < 2 * (a - a.fdiv b * b) then a.fdiv b + 1
  else if a.fdiv b % 2 = 0 then a.fdiv b else a.fdiv b + 1

/-- Group a flat list into consecutive pairs (drops a trailing odd element;
only ever used under the even-length guard below). -/
def chunk2 : List ℚ → List (ℚ × ℚ)
  | a :: b :: rest => (a, b) :: chunk2 rest
  | _ => []

/-- `np.reshape(xs, (-1, 2))` of line 262: fails (the script dies with an
unhandled ValueError, writing no output) unless the length is even. -/
def reshape2 (l : List ℚ) : Option (List (ℚ × ℚ)) :=
  if l.length % 2 = 0 then some (chunk2 l) else none

/-- The odd-length diagnostic flag of line 250: `odd = len(on_off_times_ms) % 2`.
When it is false the script prints the diagnostic of line 255. -/
def oddFlag (l : List ℚ) : Bool := l.length % 2 == 1

/-- Lines 257-267: append the fixed 10 ms filler off-duration, reshape into
(on, off) pairs, convert to integer 10 microsecond units. -/
def extractPairs (ms : List ℚ) : Option (List Pair) :=
  (reshape2 (ms ++ [10])).map (List.map (fun ab => (to_10us ab.1, to_10us ab.2)))

/-- The clustering comparison of lines 290-296: both the on- and the
off-durations differ by less than the tolerance. -/
def tolB (a b : Pair) : Bool :=
  decide (|a.1 - b.1| < CLUSTERING_DIVERGENCE_US) &&
    decide (|a.2 - b.2| < CLUSTERING_DIVERGENCE_US)

/-- One iteration of the outer clustering loop (lines 279-301), with the keys
array modelled as a function from index to key and the state carrying
`num_keys`.  If pair `i` is still unassigned, class `num_keys + 1` is opened
and assigned to pair `i` and to every other pair within tolerance of pair `i`
on both coordinates (the inner loop of lines 288-301 runs over all pairs,
assigned or not, skipping only `count == i`). -/
def clusterStep (p : List Pair) (st : (ℕ → ℕ) × ℕ) (i : ℕ) : (ℕ → ℕ) × ℕ :=
  if st.1 i = 0 then
    (fun c =>
      if c = i ∨ (tolB (pget p i) (pget p c)) = true then st.2 + 1 else st.1 c,
     st.2 + 1)
  else st

/-- The keys-array state after the outer loop has processed pairs `0..m-1`. -/
def clusterUpTo (p : List Pair) (m : ℕ) : (ℕ → ℕ) × ℕ :=
  (List.range m).foldl (clusterStep p) (fun _ => 0, 0)

/-- The keys array `on_off_time_keys` after the clustering double loop
(lines 273-301): 1-based class keys, one per pulse pair. -/
def on_off_time_keys (p : List Pair) : List ℕ :=
  (List.range p.length).map (clusterUpTo p p.length).1

/-- `last_key = on_off_time_keys[-1]` (line 305), the pre-resolution class
key of the final pair. -/
def last_key (p : List Pair) : ℕ := (on_off_time_keys p).getLast?.getD 0

/-- The members of class `k`, gathered exactly as the averaging loop of
lines 312-322 does: walk the keys array with its index, keep the pairs whose
key equals `k`. -/
def classMembers (p : List Pair) (k : ℕ) : List Pair :=
  ((List.range p.length).filter
    (fun c => (on_off_time_keys p).getD c 0 == k)).map (pget p)

/-- `key_vals` (lines 309-325): per class `1..last_key`, the rounded average
of the members' on- and off-durations. -/
def key_vals (p : List Pair) : List Pair :=
  (List.range (last_key p)).map (fun u =>
    (pyRound (((classMembers p (u + 1)).map Prod.fst).sum)
        ((classMembers p (u + 1)).length : ℤ),
     pyRound (((classMembers p (u + 1)).map Prod.snd).sum)
        ((classMembers p (u + 1)).length : ℤ)))

/-- Python `l[-1] = v` on a nonempty list. -/
def setLast (l : List ℕ) (v : ℕ) : List ℕ := l.dropLast ++ [v]

/-- The substitute search of lines 332-343: the first `key_index` in
`range(0, last_key)` whose averaged on-duration is within tolerance of the
final class's averaged on-duration.  Note the range includes the final
class itself (`key_index = last_key - 1`). -/
def subst_key (p : List Pair) : Option ℕ :=
  (List.range (last_key p)).find? (fun ki =>
    decide (|((key_vals p).getD (last_key p - 1) (0, 0)).1 -
      ((key_vals p).getD ki (0, 0)).1| < CLUSTERING_DIVERGENCE_US))

/-- Trailing-pulse resolution (lines 329-343): on a match, re-point the
final pair's key and pop the final `key_vals` entry. -/
def resolved (p : List Pair) : List Pair × List ℕ :=
  match subst_key p with
  | some ki => ((key_vals p).dropLast, setLast (on_off_time_keys p) (ki + 1))
  | none => (key_vals p, on_off_time_keys p)

/-- The class table as written to the `times (x10us)` section. -/
def final_key_vals (p : List Pair) : List Pair := (resolved p).1

/-- The 0-based key sequence after re-basing (lines 347-348).  Natural
subtraction is faithful because every key is at least 1 (proved below). -/
def final_keys (p : List Pair) : List ℕ := (resolved p).2.map (fun k => k - 1)

/-- `ceil(n / 2)` over naturals, the quirky reference bit-width formula. -/
def ceilHalf (n : ℕ) : ℕ := (n + 1) / 2

/-- `bits_per_index = math.ceil(last_key / 2)` (line 359) - computed from the
pre-resolution `last_key` saved at line 305. -/
def bits_per_index (p : List Pair) : ℕ := ceilHalf (last_key p)

/-- State of the bit-packing loop (lines 357-362). -/
structure PackState where
  curr_bit_shift : ℕ
  num_overflow_bits : ℕ
  byte : ℕ
  out : List ℕ

/-- One iteration of the packing loop (lines 363-383).  The test
`curr_bit_shift - bits_per_index >= 0` on Python ints is `bits ≤ shift`. -/
def packStep (bits : ℕ) (st : PackState) (key : ℕ) : PackState :=
  if bits ≤ st.curr_bit_shift then
    ⟨st.curr_bit_shift - bits, 0,
      st.byte ||| (key <<< (st.curr_bit_shift - bits)), st.out⟩
  else
    ⟨8 - (bits - st.curr_bit_shift), bits - st.curr_bit_shift,
      (key <<< (8 - (bits - st.curr_bit_shift))) &&& 255,
      st.out ++ [st.byte ||| (key >>> (bits - st.curr_bit_shift))]⟩

/-- The full Index Packer (lines 357-390), including the final-flush guard
`if num_overflow_bits == 0` of line 387. -/
def pack (bits : ℕ) (keys : List ℕ) : List ℕ :=
  let st := keys.foldl (packStep bits) ⟨8, 0, 0, []⟩
  if st.num_overflow_bits = 0 then st.out ++ [st.byte] else st.out

/-- `data1 = [len(on_off_time_keys), bits_per_index]` (line 397), the second
row of the output file. -/
def data1 (p : List Pair) : ℕ × ℕ := ((final_keys p).length, bits_per_index p)

/-- The whole run downstream of pulse extraction, producing the data written
to the output file (second row, class table, packed bytes); `none` models the
script dying with no output file. -/
def runPipeline (ms : List ℚ) : Option ((ℕ × ℕ) × List Pair × List ℕ) :=
  (extractPairs ms).map (fun p =>
    (data1 p, (final_key_vals p, pack (bits_per_index p) (final_keys p))))

/-!
Reference description of the clustering, used to state the amended C6: the
anchors (first-seen class representatives) in creation order, and the class
of a pair as the position of the last anchor within tolerance of it.
-/

/-- The anchors created while processing pairs `0..m-1`: pair `j` becomes an
anchor exactly when it is within tolerance of no earlier anchor. -/
def anchorsUpTo (p : List Pair) (m : ℕ) : List ℕ :=
  (List.range m).foldl
    (fun A j =>
      if A.all (fun a => !tolB (pget p a) (pget p j)) then A ++ [j] else A)
    []

/-- All anchors of the pair list, in creation order. -/
def anchors (p : List Pair) : List ℕ := anchorsUpTo p p.length

/-- 1-based position (counted from `pos`) of the last entry of the anchor
list whose pair is within tolerance of pair `c`; 0 when none matches. -/
def specKeyFrom (p : List Pair) (c : ℕ) : ℕ → List ℕ → ℕ
  | _, [] => 0
  | pos, a :: as =>
    if specKeyFrom p c (pos + 1) as = 0 then
      if tolB (pget p a) (pget p c) = true then pos else 0
    else specKeyFrom p c (pos + 1) as

/-- Reference class key of pair `c`: the 1-based position of the last anchor
within tolerance of pair `c` (an anchor always matches itself). -/
def specKey (p : List Pair) (c : ℕ) : ℕ := specKeyFrom p c 1 (anchors p)

/-!
Helper lemmas.
-/

theorem tolB_self (a : Pair) : tolB a a = true := by
  simp [tolB, CLUSTERING_DIVERGENCE_US]

theorem tolB_comm (a b : Pair) : tolB a b = tolB b a := by
  simp only [tolB, abs_sub_comm]

theorem specKeyFrom_nil (p : List Pair) (c pos : ℕ) :
    specKeyFrom p c pos [] = 0 := rfl

theorem specKeyFrom_cons (p : List Pair) (c pos b : ℕ) (A : List ℕ) :
    specKeyFrom p c pos (b :: A) =
      if specKeyFrom p c (pos + 1) A = 0 then
        if tolB (pget p b) (pget p c) = true then pos else 0
      else specKeyFrom p c (pos + 1) A := rfl

theorem specKeyFrom_append (p : List Pair) (c : ℕ) (A : List ℕ) (a : ℕ) :
    ∀ pos, specKeyFrom p c pos (A ++ [a]) =
      if tolB (pget p a) (pget p c) = true then pos + A.length
      else specKeyFrom p c pos A := by
  induction A with
  | nil =>
    intro pos
    by_cases h : tolB (pget p a) (pget p c) = true <;>
      simp [specKeyFrom_nil, specKeyFrom_cons, h]
  | cons b A ih =>
    intro pos
    rw [List.cons_append, specKeyFrom_cons, specKeyFrom_cons, ih (pos + 1)]
    by_cases h : tolB (pget p a) (pget p c) = true
    · rw [if_pos h, if_pos h, if_neg (by omega), List.length_cons]
      omega
    · rw [if_neg h, if_neg h]

theorem specKeyFrom_eq_zero (p : List Pair) (c : ℕ) (A : List ℕ) :
    ∀ pos, 1 ≤ pos →
      (specKeyFrom p c pos A = 0 ↔
        ∀ a ∈ A, tolB (pget p a) (pget p c) = false) := by
  induction A with
  | nil => intro pos _; simp [specKeyFrom]
  | cons b A ih =>
    intro pos hpos
    simp only [specKeyFrom]
    constructor
    · intro h0 a ha
      have hrest : specKeyFrom p c (pos + 1) A = 0 := by
        by_contra hne
        rw [if_neg hne] at h0
        exact hne h0
      rcases List.mem_cons.1 ha with rfl | haA
      · rw [if_pos hrest] at h0
        by_contra htol
        rw [Bool.not_eq_false] at htol
        rw [if_pos htol] at h0
        omega
      · exact (ih (pos + 1) (by omega)).1 hrest a haA
    · intro hall
      have hrest : specKeyFrom p c (pos + 1) A = 0 :=
        (ih (pos + 1) (by omega)).2 (fun a ha => hall a (List.mem_cons_of_mem b ha))
      rw [if_pos hrest, if_neg (by simp [hall b (List.mem_cons_self b A)])]

theorem specKeyFrom_bound (p : List Pair) (c : ℕ) (A : List ℕ) :
    ∀ pos, specKeyFrom p c pos A = 0 ∨
      (pos ≤ specKeyFrom p c pos A ∧ specKeyFrom p c pos A < pos + A.length) := by
  induction A with
  | nil => intro pos; left; rfl
  | cons b A ih =>
    intro pos
    simp only [specKeyFrom, List.length_cons]
    rcases ih (pos + 1) with h0 | hlt
    · rw [if_pos h0]
      by_cases h : tolB (pget p b) (pget p c) = true
      · rw [if_pos h]; right; omega
      · rw [if_neg h]; left; rfl
    · rw [if_neg (by omega)]
      right
      omega

theorem clusterUpTo_succ (p : List Pair) (m : ℕ) :
    clusterUpTo p (m + 1) = clusterStep p (clusterUpTo p m) m := by
  unfold clusterUpTo
  rw [List.range_succ, List.foldl_append, List.foldl_cons, List.foldl_nil]

theorem anchorsUpTo_succ (p : List Pair) (m : ℕ) :
    anchorsUpTo p (m + 1) =
      if (anchorsUpTo p m).all (fun a => !tolB (pget p a) (pget p m)) then
        anchorsUpTo p m ++ [m]
      else anchorsUpTo p m := by
  unfold anchorsUpTo
  rw [List.range_succ, List.foldl_append, List.foldl_cons, List.foldl_nil]

theorem cluster_spec_inv (p : List Pair) :
    ∀ m, (clusterUpTo p m).2 = (anchorsUpTo p m).length ∧
      ∀ c, (clusterUpTo p m).1 c = specKeyFrom p c 1 (anchorsUpTo p m) := by
  intro m
  induction m with
  | zero =>
    constructor
    · rfl
    · intro c; rfl
  | succ m ih =>
    obtain ⟨ih1, ih2⟩ := ih
    rw [clusterUpTo_succ, anchorsUpTo_succ]
    by_cases h : (clusterUpTo p m).1 m = 0
    · have hall :
          ((anchorsUpTo p m).all fun a => !tolB (pget p a) (pget p m)) = true := by
        rw [List.all_eq_true]
        intro a ha
        have h0 : specKeyFrom p m 1 (anchorsUpTo p m) = 0 := by
          rw [← ih2 m]; exact h
        have := (specKeyFrom_eq_zero p m (anchorsUpTo p m) 1 le_rfl).1 h0 a ha
        simp [this]
      rw [if_pos hall]
      unfold clusterStep
      rw [if_pos h]
      constructor
      · simp [ih1]
      · intro c
        rw [specKeyFrom_append]
        by_cases hc : c = m ∨ tolB (pget p m) (pget p c) = true
        · have htol : tolB (pget p m) (pget p c) = true := by
            rcases hc with rfl | h2
            · exact tolB_self _
            · exact h2
          simp only [if_pos hc, if_pos htol, ih1]
          omega
        · have htol : ¬ tolB (pget p m) (pget p c) = true := fun h2 => hc (Or.inr h2)
          simp only [if_neg hc, if_neg htol]
          exact ih2 c
    · have hex : ∃ a ∈ anchorsUpTo p m, tolB (pget p a) (pget p m) = true := by
        by_contra hno
        push_neg at hno
        have h0 : specKeyFrom p m 1 (anchorsUpTo p m) = 0 :=
          (specKeyFrom_eq_zero p m (anchorsUpTo p m) 1 le_rfl).2
            (fun a ha => Bool.not_eq_true _ ▸ hno a ha)
        rw [← ih2 m] at h0
        exact h h0
      have hall :
          ((anchorsUpTo p m).all fun a => !tolB (pget p a) (pget p m)) = false := by
        rw [List.all_eq_false]
        obtain ⟨a, ha, hta⟩ := hex
        exact ⟨a, ha, by simp [hta]⟩
      rw [if_neg (by simp [hall])]
      unfold clusterStep
      rw [if_neg h]
      exact ⟨ih1, ih2⟩

theorem clusterUpTo_pos (p : List Pair) :
    ∀ m j, j < m → (clusterUpTo p m).1 j ≠ 0 := by
  intro m
  induction m with
  | zero => intro j hj; omega
  | succ m ih =>
    intro j hj
    rw [clusterUpTo_succ]
    unfold clusterStep
    by_cases h : (clusterUpTo p m).1 m = 0
    · rw [if_pos h]
      dsimp only
      by_cases hc : j = m ∨ tolB (pget p m) (pget p j) = true
      · rw [if_pos hc]; omega
      · rw [if_neg hc]
        have hjm : j ≠ m := fun he => hc (Or.inl he)
        exact ih j (by omega)
    · rw [if_neg h]
      rcases Nat.lt_succ_iff_lt_or_eq.1 hj with h1 | rfl
      · exact ih j h1
      · exact h

theorem keys_length (p : List Pair) : (on_off_time_keys p).length = p.length := by
  simp [on_off_time_keys]

theorem keys_getD (p : List Pair) (c : ℕ) (h : c < p.length) :
    (on_off_time_keys p).getD c 0 = (clusterUpTo p p.length).1 c := by
  unfold on_off_time_keys
  rw [List.getD_eq_getElem?_getD, List.getElem?_map, List.getElem?_range h]
  rfl

theorem last_key_eq (p : List Pair) (hp : p ≠ []) :
    last_key p = (clusterUpTo p p.length).1 (p.length - 1) := by
  have hlen : 0 < p.length := List.length_pos.2 hp
  unfold last_key on_off_time_keys
  rw [List.getLast?_eq_getElem?, List.length_map, List.length_range,
    List.getElem?_map, List.getElem?_range (by omega)]
  rfl

theorem last_key_pos (p : List Pair) (hp : p ≠ []) : 1 ≤ last_key p := by
  rw [last_key_eq p hp]
  have hlen : 0 < p.length := List.length_pos.2 hp
  have := clusterUpTo_pos p p.length (p.length - 1) (by omega)
  omega

theorem anchors_lt (p : List Pair) :
    ∀ m, ∀ a ∈ anchorsUpTo p m, a < m := by
  intro m
  induction m with
  | zero => intro a ha; simp [anchorsUpTo] at ha
  | succ m ih =>
    intro a ha
    rw [anchorsUpTo_succ] at ha
    split at ha
    · rcases List.mem_append.1 ha with h1 | h2
      · exact Nat.lt_succ_of_lt (ih a h1)
      · simp at h2; omega
    · exact Nat.lt_succ_of_lt (ih a ha)

theorem anchors_pairwise (p : List Pair) :
    ∀ m, (anchorsUpTo p m).Pairwise
      (fun a b => tolB (pget p a) (pget p b) = false) := by
  intro m
  induction m with
  | zero => simp [anchorsUpTo]
  | succ m ih =>
    rw [anchorsUpTo_succ]
    split
    case isTrue h =>
      rw [List.pairwise_append]
      refine ⟨ih, List.pairwise_singleton _ _, ?_⟩
      intro a ha b hb
      simp only [List.mem_singleton] at hb
      subst hb
      have := List.all_eq_true.1 h a ha
      simpa using this
    case isFalse h => exact ih

theorem specKeyFrom_anchor (p : List Pair) :
    ∀ (A : List ℕ),
      A.Pairwise (fun a b => tolB (pget p a) (pget p b) = false) →
      ∀ (pos idx : ℕ) (h : idx < A.length),
        specKeyFrom p (A.get ⟨idx, h⟩) pos A = pos + idx := by
  intro A
  induction A with
  | nil => intro _ pos idx h; simp at h
  | cons b A ih =>
    intro hpw pos idx h
    obtain ⟨hb, hpwA⟩ := List.pairwise_cons.1 hpw
    cases idx with
    | zero =>
      have hrest : specKeyFrom p b (pos + 1) A = 0 := by
        rw [specKeyFrom_eq_zero p b A (pos + 1) (by omega)]
        intro a ha
        rw [tolB_comm]
        exact hb a ha
      show specKeyFrom p ((b :: A).get ⟨0, h⟩) pos (b :: A) = pos + 0
      rw [show (b :: A).get ⟨0, h⟩ = b from rfl]
      rw [specKeyFrom_cons, if_pos hrest, if_pos (tolB_self _)]
      omega
    | succ i =>
      have h2 : i < A.length := by
        simp only [List.length_cons] at h
        omega
      have hrest := ih hpwA (pos + 1) i h2
      show specKeyFrom p ((b :: A).get ⟨i + 1, h⟩) pos (b :: A) = pos + (i + 1)
      rw [show (b :: A).get ⟨i + 1, h⟩ = A.get ⟨i, h2⟩ from rfl]
      rw [specKeyFrom_cons, hrest, if_neg (by omega)]
      omega

theorem last_key_le (p : List Pair) (hp : p ≠ []) :
    last_key p ≤ (anchors p).length := by
  rw [last_key_eq p hp, (cluster_spec_inv p p.length).2]
  rcases specKeyFrom_bound p (p.length - 1) (anchorsUpTo p p.length) 1 with h | h
  · rw [h]; omega
  · unfold anchors
    omega

theorem key_vals_length (p : List Pair) :
    (key_vals p).length = last_key p := by
  simp [key_vals]

theorem resolved_spec (p : List Pair) (hp : p ≠ []) :
    final_key_vals p = (key_vals p).dropLast ∧
      (final_key_vals p).length + 1 = last_key p := by
  have hlk := last_key_pos p hp
  have hsome : ∃ ki, subst_key p = some ki := by
    cases hfind : subst_key p with
    | some ki => exact ⟨ki, rfl⟩
    | none =>
      exfalso
      unfold subst_key at hfind
      have hmem : last_key p - 1 ∈ List.range (last_key p) :=
        List.mem_range.2 (by omega)
      have := List.find?_eq_none.1 hfind (last_key p - 1) hmem
      apply this
      simp [CLUSTERING_DIVERGENCE_US]
  obtain ⟨ki, hki⟩ := hsome
  have hfin : final_key_vals p = (key_vals p).dropLast := by
    unfold final_key_vals resolved
    rw [hki]
  refine ⟨hfin, ?_⟩
  rw [hfin, List.length_dropLast, key_vals_length]
  omega

theorem final_keys_length (p : List Pair) (hp : p ≠ []) :
    (final_keys p).length = p.length := by
  have hlen : 0 < p.length := List.length_pos.2 hp
  have hkl : (on_off_time_keys p).length = p.length := keys_length p
  unfold final_keys resolved
  cases hki : subst_key p with
  | some ki =>
    simp only [List.length_map, setLast, List.length_append,
      List.length_dropLast, List.length_cons, List.length_nil, hkl]
    omega
  | none =>
    simp [hkl]

/-!
Claim theorems.
-/

/-- C1 (evaluation at the failing input): on the pulse-pair input
`[(100, 50), (500, 20)]` the final pair's on-duration matches no earlier
class, the substitute search self-matches, and the script emits the
KeySequence `[0, 1]` together with a one-row ClassTable - the key `1`
references a nonexistent table entry, violating the claimed round-trip
class integrity (every key in `[0, N)`). -/
theorem c1_dangling_final_index :
    final_keys [((100 : ℤ), (50 : ℤ)), ((500 : ℤ), (20 : ℤ))] = [0, 1] ∧
      final_key_vals [((100 : ℤ), (50 : ℤ)), ((500 : ℤ), (20 : ℤ))] =
        [(100, 50)] := by
  decide

/-- C2 (evaluation at the failing input): on `[(200, 30), (700, 40)]` no
other class's averaged on-duration is within tolerance of the final class's
`700` (the only other class averages `200`), yet the final ClassTable entry
is dropped anyway, because the substitute search of lines 333-343 includes
the final class itself and self-matches.  The claim says the table is left
unchanged in this situation. -/
theorem c2_table_dropped_without_substitute :
    key_vals [((200 : ℤ), (30 : ℤ)), ((700 : ℤ), (40 : ℤ))] =
        [(200, 30), (700, 40)] ∧
      final_key_vals [((200 : ℤ), (30 : ℤ)), ((700 : ℤ), (40 : ℤ))] =
        [(200, 30)] ∧
      ¬ |(700 : ℤ) - 200| < CLUSTERING_DIVERGENCE_US := by
  decide

/-- C3 (counterexample): on `[(100, 50), (300, 60), (500, 20)]` the final
ClassTable has `N = 2` rows but the written bits-per-index is `2`, not
`ceil(N / 2) = 1`: the code computes the width from the pre-resolution
`last_key = 3`, not from the final class count. -/
theorem c3_counterexample :
    bits_per_index
        [((100 : ℤ), (50 : ℤ)), ((300 : ℤ), (60 : ℤ)), ((500 : ℤ), (20 : ℤ))] = 2 ∧
      (final_key_vals
        [((100 : ℤ), (50 : ℤ)), ((300 : ℤ), (60 : ℤ)), ((500 : ℤ), (20 : ℤ))]).length = 2 ∧
      ceilHalf 2 = 1 := by
  decide

/-- C3 (amended): the bits-per-index written to the output equals
`ceil(last_key / 2)` for the pre-resolution `last_key`; since the resolver
always removes exactly one table entry, this is `ceil((N + 1) / 2)` where
`N` is the row count of the output ClassTable - not `ceil(N / 2)`. -/
theorem c3_bits_from_pre_resolution_key (p : List Pair) (hp : p ≠ []) :
    bits_per_index p = ceilHalf ((final_key_vals p).length + 1) := by
  have h := (resolved_spec p hp).2
  unfold bits_per_index
  rw [h]

/-- C3 witness: the amended statement at the one-pair input `[(0, 0)]`. -/
theorem c3_witness :
    ([((0 : ℤ), (0 : ℤ))] : List Pair) ≠ [] ∧
      bits_per_index [((0 : ℤ), (0 : ℤ))] =
        ceilHalf ((final_key_vals [((0 : ℤ), (0 : ℤ))]).length + 1) :=
  ⟨by decide, c3_bits_from_pre_resolution_key [((0 : ℤ), (0 : ℤ))] (by decide)⟩

/-- C4 (evaluation at the failing input): packing the nine keys
`[0,0,0,0,0,0,0,0,1]` at one bit per index emits a single byte instead of
the claimed `ceil(9 * 1 / 8) = 2`: the ninth index overflows into a fresh
byte, and the final-flush guard `if num_overflow_bits == 0` of line 387
then skips the partially-filled final byte, losing its bits. -/
theorem c4_packer_drops_final_byte :
    pack 1 [0, 0, 0, 0, 0, 0, 0, 0, 1] = [0] ∧ (9 * 1 + 7) / 8 = 2 := by
  decide

/-- C5 (counterexample): on the spec's own scenario input
`[(100, 50), (101, 49), (500, 20)]` the second output row is `(3, 1)` -
the KeySequence length 3, not the final class count, which is 1. -/
theorem c5_counterexample :
    data1 [((100 : ℤ), (50 : ℤ)), ((101 : ℤ), (49 : ℤ)), ((500 : ℤ), (20 : ℤ))] =
        (3, 1) ∧
      (final_key_vals
        [((100 : ℤ), (50 : ℤ)), ((101 : ℤ), (49 : ℤ)), ((500 : ℤ), (20 : ℤ))]).length = 1 := by
  decide

/-- C5 (amended): the first entry of the second output row is the number of
pulse pairs (the KeySequence length), not the class count. -/
theorem c5_row2_counts_pulse_pairs (p : List Pair) (hp : p ≠ []) :
    (data1 p).1 = p.length := by
  unfold data1
  exact final_keys_length p hp

/-- C5 witness: the amended statement at the one-pair input `[(1, 2)]`. -/
theorem c5_witness :
    ([((1 : ℤ), (2 : ℤ))] : List Pair) ≠ [] ∧
      (data1 [((1 : ℤ), (2 : ℤ))]).1 = ([((1 : ℤ), (2 : ℤ))] : List Pair).length :=
  ⟨by decide, c5_row2_counts_pulse_pairs [((1 : ℤ), (2 : ℤ))] (by decide)⟩

/-- C6 (counterexample): on `[(0, 0), (3, 0), (6, 0)]` the final keys are
`[1, 2, 2]` although pair 1 is within tolerance of pair 0, the first-seen
representative of class 1, on both coordinates: pair 1 was first assigned
to class 1 and then re-assigned when pair 2 opened class 2, so the claimed
"same class iff within tolerance of the class's anchor" (and the claim that
assigned pairs are never moved) fails. -/
theorem c6_counterexample :
    on_off_time_keys [((0 : ℤ), (0 : ℤ)), ((3 : ℤ), (0 : ℤ)), ((6 : ℤ), (0 : ℤ))] =
        [1, 2, 2] ∧
      tolB ((0 : ℤ), (0 : ℤ)) ((3 : ℤ), (0 : ℤ)) = true := by
  decide

/-- C6 (amended): a pair becomes an anchor (opening a new class) exactly
when it is within tolerance of no earlier anchor, and when a class is
opened, every other pair within tolerance of the anchor - assigned or not -
is re-pointed to the new class; hence the final ClassKey of every pair is
the 1-based position of the last-created anchor within tolerance of it
(anchors themselves always keep their own class). -/
theorem c6_cluster_last_anchor_characterization (p : List Pair) :
    on_off_time_keys p = (List.range p.length).map (specKey p) := by
  unfold on_off_time_keys
  apply List.map_congr_left
  intro c _
  rw [(cluster_spec_inv p p.length).2 c]
  rfl

/-- C7: if the raw duration sequence has even length, the diagnostic flag
is false (the script prints the line-255 diagnostic) and the run produces
no output: after appending the filler the length is odd, so the reshape of
line 262 fails and nothing downstream (clustering, packing, file write)
happens. -/
theorem c7_even_length_aborts (ms : List ℚ) (h : ms.length % 2 = 0) :
    oddFlag ms = false ∧ runPipeline ms = none := by
  constructor
  · unfold oddFlag
    rw [h]
    rfl
  · have hlen : (ms ++ [(10 : ℚ)]).length % 2 = 1 := by
      rw [List.length_append]
      simp only [List.length_cons, List.length_nil]
      omega
    unfold runPipeline extractPairs reshape2
    rw [if_neg (by omega)]
    rfl

/-- C7 witness: the empty (even-length) duration sequence. -/
theorem c7_witness :
    ([] : List ℚ).length % 2 = 0 ∧ oddFlag [] = false ∧
      runPipeline [] = none :=
  ⟨rfl, c7_even_length_aborts [] rfl⟩

/-- C8 (counterexample): the millisecond duration `1/8` (exactly
representable as a binary float) is `12.5` in 10 microsecond units; the
conversion stores `12` (truncation), although its fractional part is `0.5`
and the claimed round-to-nearest would store the ceiling `13`. -/
theorem c8_counterexample :
    extractPairs [(1 / 8 : ℚ)] = some [((12 : ℤ), 1000)] ∧
      (⌈(1 / 8 : ℚ) * 100⌉ : ℤ) = 13 := by
  constructor
  · unfold extractPairs reshape2
    norm_num [chunk2, to_10us, truncInt]
  · rw [Int.ceil_eq_iff]
    norm_num

/-- C8 (amended): each stored PulseDuration is the truncation toward zero
of the duration in 10 microsecond units - the floor, for the nonnegative
durations - so a fractional part of at least one half is rounded down, not
up. -/
theorem c8_truncation_not_rounding (d : ℚ) (h : 0 ≤ d) :
    to_10us d = ⌊d * 100⌋ := by
  unfold to_10us truncInt
  rw [if_pos (mul_nonneg h (by norm_num))]

/-- C8 witness: the amended statement at the duration `1/8` ms. -/
theorem c8_witness :
    0 ≤ (1 / 8 : ℚ) ∧ to_10us (1 / 8) = ⌊(1 / 8 : ℚ) * 100⌋ :=
  ⟨by norm_num, c8_truncation_not_rounding (1 / 8) (by norm_num)⟩

/-- C9: every class key in `1..last_key` has at least one member (the k-th
anchor always keeps class k), so the member count `num_items` in the
averaging loop is at least 1 and the averaging division is never by zero. -/
theorem c9_every_class_nonempty (p : List Pair) (hp : p ≠ []) (k : ℕ)
    (h1 : 1 ≤ k) (h2 : k ≤ last_key p) :
    0 < (classMembers p k).length := by
  have hle : last_key p ≤ (anchors p).length := last_key_le p hp
  have hk : k - 1 < (anchors p).length := by omega
  have hpw : (anchors p).Pairwise
      (fun a b => tolB (pget p a) (pget p b) = false) :=
    anchors_pairwise p p.length
  have hspec := specKeyFrom_anchor p (anchors p) hpw 1 (k - 1) hk
  have ha_lt : (anchors p).get ⟨k - 1, hk⟩ < p.length :=
    anchors_lt p p.length _ (List.get_mem _ _ _)
  have hkey : (clusterUpTo p p.length).1 ((anchors p).get ⟨k - 1, hk⟩) = k := by
    rw [(cluster_spec_inv p p.length).2]
    show specKeyFrom p ((anchors p).get ⟨k - 1, hk⟩) 1 (anchors p) = k
    rw [hspec]
    omega
  have hmemf : (anchors p).get ⟨k - 1, hk⟩ ∈
      (List.range p.length).filter
        (fun c => (on_off_time_keys p).getD c 0 == k) := by
    rw [List.mem_filter]
    refine ⟨List.mem_range.2 ha_lt, ?_⟩
    rw [keys_getD p _ ha_lt, hkey]
    simp
  exact List.length_pos_of_mem (List.mem_map_of_mem _ hmemf)

/-- C9 witness: class 1 of the one-pair input `[(7, 7)]` is nonempty. -/
theorem c9_witness :
    ([((7 : ℤ), (7 : ℤ))] : List Pair) ≠ [] ∧
      1 ≤ last_key [((7 : ℤ), (7 : ℤ))] ∧
      0 < (classMembers [((7 : ℤ), (7 : ℤ))] 1).length :=
  ⟨by decide, by decide,
    c9_every_class_nonempty [((7 : ℤ), (7 : ℤ))] (by decide) 1 le_rfl (by decide)⟩

/-- C10: for every nonempty pulse-pair input the substitute search always
succeeds (the final class is in its own candidate range and matches itself
with on-duration difference 0), so exactly one ClassTable entry - the last -
is removed on every run, and the final ClassTable length is the final
pair's pre-resolution class key minus 1. -/
theorem c10_resolver_always_removes_last (p : List Pair) (hp : p ≠ []) :
    final_key_vals p = (key_vals p).dropLast ∧
      (final_key_vals p).length + 1 = last_key p :=
  resolved_spec p hp

/-- C10 witness: the statement at the one-pair input `[(9, 4)]`. -/
theorem c10_witness :
    ([((9 : ℤ), (4 : ℤ))] : List Pair) ≠ [] ∧
      (final_key_vals [((9 : ℤ), (4 : ℤ))] =
        (key_vals [((9 : ℤ), (4 : ℤ))]).dropLast ∧
      (final_key_vals [((9 : ℤ), (4 : ℤ))]).length + 1 =
        last_key [((9 : ℤ), (4 : ℤ))]) :=
  ⟨by decide, c10_resolver_always_removes_last [((9 : ℤ), (4 : ℤ))] (by decide)⟩
